import Mathlib

/-
  Verification of the noesis telemetry ingestion system against its
  natural-language specification.

  Shallow embedding of:
  - services/elias-bot/elias_mux_bot.py : strip_telnet_iac, smart_decode,
    and the top-level retry loop of main().
  - services/noesis-bridge/src/bridge.py : parse_noesis_kv, the record-mode
    line-processing of main() (SAY/MOVE validation and seq assignment),
    the keepalive thread body, and the heartbeat emission control flow.
  - services/noesis-bridge/src/writer.py : events_path, EventWriter.

  Bytes are modelled as Nat (with explicit < 256 hypotheses where byte-ness
  matters); text as List Char; Python dicts as association lists with
  in-place overwrite; the file system as a map from paths to lists of
  records; wall-clock inputs (the current UTC day) are passed explicitly.
-/

/-! ### Stream decoder: strip_telnet_iac (elias_mux_bot.py lines 20-67) -/

/-- Inner loop of the SB branch (lines 52-56): advance until a 255 240
pair (IAC SE) is found, consume it, and return the remaining bytes;
if no terminator occurs, the whole remainder is consumed. -/
def skipSB : List Nat → List Nat
  | [] => []
  | a :: rest =>
    match rest with
    | b :: rest2 => if a = 255 ∧ b = 240 then rest2 else skipSB rest
    | [] => []

theorem skipSB_length (l : List Nat) : (skipSB l).length ≤ l.length := by
  induction l with
  | nil => simp [skipSB]
  | cons a rest ih =>
    cases rest with
    | nil => simp [skipSB]
    | cons b rest2 =>
      by_cases h : a = 255 ∧ b = 240
      · simp [skipSB, h]; omega
      · simp only [skipSB, if_neg h]
        calc (skipSB (b :: rest2)).length ≤ (b :: rest2).length := ih
          _ ≤ (a :: b :: rest2).length := by simp

/-- Outer loop of strip_telnet_iac (lines 31-65): copy ordinary bytes,
convert 255 255 to one literal 255, discard subnegotiations via skipSB,
discard 3 bytes for WILL/WONT/DO/DONT (251-254), and discard 2 bytes for
any other command; a trailing lone 255 ends the scan. -/
def stripTelnetIac : List Nat → List Nat
  | [] => []
  | b :: rest =>
    if b ≠ 255 then b :: stripTelnetIac rest
    else
      match rest with
      | [] => []
      | cmd :: rest2 =>
        if cmd = 255 then 255 :: stripTelnetIac rest2
        else if cmd = 250 then stripTelnetIac (skipSB rest2)
        else if cmd = 251 ∨ cmd = 252 ∨ cmd = 253 ∨ cmd = 254 then
          stripTelnetIac rest2.tail
        else stripTelnetIac rest2
termination_by l => l.length
decreasing_by
  all_goals simp_wf
  all_goals try omega
  have := skipSB_length rest
  omega

theorem strip_nil : stripTelnetIac [] = [] := by
  simp [stripTelnetIac]

theorem strip_cons_ne (b : Nat) (rest : List Nat) (h : b ≠ 255) :
    stripTelnetIac (b :: rest) = b :: stripTelnetIac rest := by
  rw [stripTelnetIac.eq_def]; simp [h]

theorem strip_iac_end : stripTelnetIac [255] = [] := by
  rw [stripTelnetIac.eq_def]; simp

theorem strip_iac_iac (rest : List Nat) :
    stripTelnetIac (255 :: 255 :: rest) = 255 :: stripTelnetIac rest := by
  rw [stripTelnetIac.eq_def]; simp

theorem strip_iac_sb (rest : List Nat) :
    stripTelnetIac (255 :: 250 :: rest) = stripTelnetIac (skipSB rest) := by
  rw [stripTelnetIac.eq_def]; simp

theorem strip_iac_neg (cmd : Nat) (rest : List Nat)
    (h : cmd = 251 ∨ cmd = 252 ∨ cmd = 253 ∨ cmd = 254) :
    stripTelnetIac (255 :: cmd :: rest) = stripTelnetIac rest.tail := by
  rw [stripTelnetIac.eq_def]
  have h1 : cmd ≠ 255 := by omega
  have h2 : cmd ≠ 250 := by omega
  simp [h1, h2, h]

theorem strip_iac_other (cmd : Nat) (rest : List Nat) (h1 : cmd ≠ 255)
    (h2 : cmd ≠ 250) (h3 : ¬(cmd = 251 ∨ cmd = 252 ∨ cmd = 253 ∨ cmd = 254)) :
    stripTelnetIac (255 :: cmd :: rest) = stripTelnetIac rest := by
  rw [stripTelnetIac.eq_def]; simp [h1, h2, h3]

/-- An adjacent 255 240 (IAC SE) pair occurs somewhere in the byte list. -/
def hasIacSe : List Nat → Bool
  | a :: b :: rest => (a = 255 && b = 240) || hasIacSe (b :: rest)
  | _ => false

theorem skipSB_no_se (l : List Nat) (h : hasIacSe l = false) : skipSB l = [] := by
  induction l with
  | nil => simp [skipSB]
  | cons a rest ih =>
    cases rest with
    | nil => simp [skipSB]
    | cons b rest2 =>
      simp only [hasIacSe, Bool.or_eq_false_iff, Bool.and_eq_false_iff] at h
      rw [skipSB, if_neg, ih h.2]
      intro hc
      rcases h.1 with h1 | h1 <;> simp [hc.1, hc.2] at h1

theorem skipSB_through (block post : List Nat) (h : hasIacSe block = false) :
    skipSB (block ++ 255 :: 240 :: post) = post := by
  induction block with
  | nil => simp [skipSB]
  | cons a block' ih =>
    cases block' with
    | nil =>
      show skipSB (a :: 255 :: 240 :: post) = post
      rw [skipSB, if_neg (by omega), skipSB, if_pos ⟨rfl, rfl⟩]
    | cons b block'' =>
      simp only [hasIacSe, Bool.or_eq_false_iff, Bool.and_eq_false_iff] at h
      show skipSB (a :: b :: (block'' ++ 255 :: 240 :: post)) = post
      rw [skipSB, if_neg ?_]
      · exact ih (by simpa [hasIacSe] using h.2)
      · intro hc
        rcases h.1 with h1 | h1 <;> simp [hc.1, hc.2] at h1

theorem strip_clean_append (pre t : List Nat) (h : 255 ∉ pre) :
    stripTelnetIac (pre ++ t) = pre ++ stripTelnetIac t := by
  induction pre with
  | nil => simp
  | cons a pre' ih =>
    have ha : a ≠ 255 := by intro hc; exact h (hc ▸ List.mem_cons_self a pre')
    rw [List.cons_append, strip_cons_ne a _ ha, ih (fun hm => h (List.mem_cons_of_mem a hm))]
    simp

/-- Claim C5: for a byte input containing a subnegotiation block opened by
escape (255) followed by subnegotiation-begin (250), no byte of the block
appears in the decoded output: a block without an internal 255 240 pair is
discarded up to and including the terminating 255 240 pair, and when no
terminator occurs before the input ends the entire remainder is discarded
rather than emitted as partial payload. -/
theorem strip_subneg_discard (pre block post : List Nat)
    (hpre : 255 ∉ pre) (hblk : hasIacSe block = false) :
    stripTelnetIac (pre ++ 255 :: 250 :: (block ++ 255 :: 240 :: post)) =
      pre ++ stripTelnetIac post ∧
    stripTelnetIac (pre ++ 255 :: 250 :: block) = pre := by
  constructor
  · rw [strip_clean_append _ _ hpre, strip_iac_sb, skipSB_through _ _ hblk]
  · rw [strip_clean_append _ _ hpre, strip_iac_sb, skipSB_no_se _ hblk,
      strip_nil, List.append_nil]

theorem strip_subneg_discard_witness :
    (255 ∉ [104, 105]) ∧ hasIacSe [1, 3, 255, 255] = false ∧
    stripTelnetIac ([104, 105] ++ 255 :: 250 :: ([1, 3, 255, 255] ++ 255 :: 240 :: [33])) =
      [104, 105] ++ stripTelnetIac [33] ∧
    stripTelnetIac ([104, 105] ++ 255 :: 250 :: [1, 3, 255, 255]) = [104, 105] := by
  refine ⟨by decide, by decide, ?_⟩
  exact strip_subneg_discard [104, 105] [1, 3, 255, 255] [33] (by decide) (by decide)

/-! ### Stream decoder: smart_decode (elias_mux_bot.py lines 70-84)

Python str.decode with the replace error handler substitutes one U+FFFD
(65533) for each maximal subpart of an ill-formed UTF-8 subsequence.
utf8d transcribes that decoder: output is the list of decoded code points. -/

def isCont (b : Nat) : Bool := 128 ≤ b && b ≤ 191

/-- UTF-8 decoding with replacement, as performed by bytes.decode with
errors set to replace: ASCII passes through, well-formed 2-, 3- and
4-byte sequences (excluding overlongs and surrogates) decode to their
code point, and each maximal subpart of an ill-formed sequence yields
one 65533. -/
def utf8d : List Nat → List Nat
  | [] => []
  | b :: rest =>
    if b ≤ 127 then b :: utf8d rest
    else if 194 ≤ b && b ≤ 223 then
      match rest with
      | [] => [65533]
      | c :: rest2 =>
        if isCont c then ((b - 192) * 64 + (c - 128)) :: utf8d rest2
        else 65533 :: utf8d (c :: rest2)
    else if 224 ≤ b && b ≤ 239 then
      match rest with
      | [] => [65533]
      | c :: rest2 =>
        if (if b = 224 then 160 ≤ c && c ≤ 191
            else if b = 237 then 128 ≤ c && c ≤ 159
            else isCont c) then
          match rest2 with
          | [] => [65533]
          | d :: rest3 =>
            if isCont d then
              ((b - 224) * 4096 + (c - 128) * 64 + (d - 128)) :: utf8d rest3
            else 65533 :: utf8d (d :: rest3)
        else 65533 :: utf8d (c :: rest2)
    else if 240 ≤ b && b ≤ 244 then
      match rest with
      | [] => [65533]
      | c :: rest2 =>
        if (if b = 240 then 144 ≤ c && c ≤ 191
            else if b = 244 then 128 ≤ c && c ≤ 143
            else isCont c) then
          match rest2 with
          | [] => [65533]
          | d :: rest3 =>
            if isCont d then
              match rest3 with
              | [] => [65533]
              | e :: rest4 =>
                if isCont e then
                  ((b - 240) * 262144 + (c - 128) * 4096 + (d - 128) * 64 + (e - 128)) ::
                    utf8d rest4
                else 65533 :: utf8d (e :: rest4)
            else 65533 :: utf8d (d :: rest3)
        else 65533 :: utf8d (c :: rest2)
    else 65533 :: utf8d rest
termination_by l => l.length
decreasing_by
  all_goals simp_wf
  all_goals omega

/-- latin-1 maps each byte to the code point of the same value. -/
def latin1d (l : List Nat) : List Nat := l

/-- smart_decode (lines 70-84): strip telnet IAC, decode as UTF-8 with
replacement, and if the fraction of replacement characters exceeds 2
percent (ratio comparison modelled exactly over the rationals:
count / max 1 len > 1/50), redecode the same cleaned bytes as latin-1. -/
def smart_decode (data : List Nat) : List Nat :=
  if data = [] then []
  else
    let cleaned := stripTelnetIac data
    let sUtf8 := utf8d cleaned
    if 50 * sUtf8.count 65533 > max 1 sUtf8.length then latin1d cleaned
    else sUtf8

/-- Claim C6: smart_decode first decodes the cleaned bytes as UTF-8 with
replacement and measures the fraction of substituted characters; exactly
when that fraction exceeds 2 percent it redecodes the same cleaned bytes
with latin-1 (a single-byte encoding defined on every byte value),
otherwise it returns the UTF-8 decoding. -/
theorem decode_fallback_iff (data : List Nat) :
    (50 * (utf8d (stripTelnetIac data)).count 65533 >
        max 1 (utf8d (stripTelnetIac data)).length →
      smart_decode data = latin1d (stripTelnetIac data)) ∧
    (¬ 50 * (utf8d (stripTelnetIac data)).count 65533 >
        max 1 (utf8d (stripTelnetIac data)).length →
      smart_decode data = utf8d (stripTelnetIac data)) := by
  by_cases hd : data = []
  · subst hd
    refine ⟨fun h => ?_, fun h => ?_⟩
    · rw [strip_nil] at h; simp [utf8d] at h
    · simp [smart_decode, strip_nil, utf8d]
  · exact ⟨fun h => by simp [smart_decode, hd, h], fun h => by simp [smart_decode, hd, h]⟩

theorem decode_fallback_iff_witness :
    smart_decode [104, 200, 201, 202] = latin1d (stripTelnetIac [104, 200, 201, 202]) ∧
    smart_decode [104, 105] = utf8d (stripTelnetIac [104, 105]) := by
  constructor
  · exact (decode_fallback_iff [104, 200, 201, 202]).1
      (by simp [stripTelnetIac, utf8d, isCont])
  · exact (decode_fallback_iff [104, 105]).2
      (by simp [stripTelnetIac, utf8d, isCont])

/-- A Unicode scalar value: below the surrogate range or above it and
below 1114112. -/
def validScalar (n : Nat) : Bool := n < 55296 || (57344 ≤ n && n < 1114112)

set_option maxRecDepth 4000 in
theorem utf8d_valid : ∀ (l : List Nat), ∀ c ∈ utf8d l, validScalar c = true
  | [] => by simp [utf8d]
  | b :: rest => by
    intro x hx
    rw [utf8d.eq_def] at hx
    by_cases hb1 : b ≤ 127
    · simp only [if_pos hb1, List.mem_cons] at hx
      rcases hx with hx | hx
      · subst hx
        simp only [validScalar, Bool.or_eq_true, decide_eq_true_eq]
        omega
      · exact utf8d_valid rest x hx
    · by_cases hb2 : (decide (194 ≤ b) && decide (b ≤ 223)) = true
      · rcases rest with _ | ⟨c, rest2⟩
        · simp [hb1, hb2] at hx
          simp [hx, validScalar]
        · by_cases hc : isCont c = true
          · simp only [if_neg hb1, if_pos hb2, if_pos hc, List.mem_cons] at hx
            rcases hx with hx | hx
            · subst hx
              simp only [Bool.and_eq_true, decide_eq_true_eq] at hb2
              simp only [isCont, Bool.and_eq_true, decide_eq_true_eq] at hc
              simp only [validScalar, Bool.or_eq_true, Bool.and_eq_true, decide_eq_true_eq]
              omega
            · exact utf8d_valid rest2 x hx
          · simp only [if_neg hb1, if_pos hb2, if_neg hc, List.mem_cons] at hx
            rcases hx with hx | hx
            · subst hx; decide
            · exact utf8d_valid (c :: rest2) x hx
      · by_cases hb3 : (decide (224 ≤ b) && decide (b ≤ 239)) = true
        · rcases rest with _ | ⟨c, rest2⟩
          · simp [hb1, hb2, hb3] at hx
            simp [hx, validScalar]
          · by_cases hcc : (if b = 224 then decide (160 ≤ c) && decide (c ≤ 191)
                else if b = 237 then decide (128 ≤ c) && decide (c ≤ 159)
                else isCont c) = true
            · rcases rest2 with _ | ⟨d, rest3⟩
              · simp [hb1, hb2, hb3, hcc] at hx
                simp [hx, validScalar]
              · by_cases hd : isCont d = true
                · simp only [if_neg hb1, if_neg hb2, if_pos hb3, if_pos hcc,
                    if_pos hd, List.mem_cons] at hx
                  rcases hx with hx | hx
                  · subst hx
                    simp only [Bool.and_eq_true, decide_eq_true_eq] at hb3
                    simp only [isCont, Bool.and_eq_true, decide_eq_true_eq] at hd
                    simp only [validScalar, Bool.or_eq_true, Bool.and_eq_true,
                      decide_eq_true_eq]
                    split_ifs at hcc with he1 he2 <;>
                      simp only [isCont, Bool.and_eq_true, decide_eq_true_eq] at hcc <;>
                      omega
                  · exact utf8d_valid rest3 x hx
                · simp only [if_neg hb1, if_neg hb2, if_pos hb3, if_pos hcc,
                    if_neg hd, List.mem_cons] at hx
                  rcases hx with hx | hx
                  · subst hx; decide
                  · exact utf8d_valid (d :: rest3) x hx
            · simp only [if_neg hb1, if_neg hb2, if_pos hb3, if_neg hcc,
                List.mem_cons] at hx
              rcases hx with hx | hx
              · subst hx; decide
              · exact utf8d_valid (c :: rest2) x hx
        · by_cases hb4 : (decide (240 ≤ b) && decide (b ≤ 244)) = true
          · rcases rest with _ | ⟨c, rest2⟩
            · simp [hb1, hb2, hb3, hb4] at hx
              simp [hx, validScalar]
            · by_cases hcc : (if b = 240 then decide (144 ≤ c) && decide (c ≤ 191)
                  else if b = 244 then decide (128 ≤ c) && decide (c ≤ 143)
                  else isCont c) = true
              · rcases rest2 with _ | ⟨d, rest3⟩
                · simp [hb1, hb2, hb3, hb4, hcc] at hx
                  simp [hx, validScalar]
                · by_cases hd : isCont d = true
                  · rcases rest3 with _ | ⟨e, rest4⟩
                    · simp [hb1, hb2, hb3, hb4, hcc, hd] at hx
                      simp [hx, validScalar]
                    · by_cases he : isCont e = true
                      · simp only [if_neg hb1, if_neg hb2, if_neg hb3, if_pos hb4,
                          if_pos hcc, if_pos hd, if_pos he, List.mem_cons] at hx
                        rcases hx with hx | hx
                        · subst hx
                          simp only [Bool.and_eq_true, decide_eq_true_eq] at hb4
                          simp only [isCont, Bool.and_eq_true, decide_eq_true_eq] at hd he
                          simp only [validScalar, Bool.or_eq_true, Bool.and_eq_true,
                            decide_eq_true_eq]
                          split_ifs at hcc with he1 he2 <;>
                            simp only [isCont, Bool.and_eq_true, decide_eq_true_eq] at hcc <;>
                            omega
                        · exact utf8d_valid rest4 x hx
                      · simp only [if_neg hb1, if_neg hb2, if_neg hb3, if_pos hb4,
                          if_pos hcc, if_pos hd, if_neg he, List.mem_cons] at hx
                        rcases hx with hx | hx
                        · subst hx; decide
                        · exact utf8d_valid (e :: rest4) x hx
                  · simp only [if_neg hb1, if_neg hb2, if_neg hb3, if_pos hb4,
                      if_pos hcc, if_neg hd, List.mem_cons] at hx
                    rcases hx with hx | hx
                    · subst hx; decide
                    · exact utf8d_valid (d :: rest3) x hx
              · simp only [if_neg hb1, if_neg hb2, if_neg hb3, if_pos hb4,
                  if_neg hcc, List.mem_cons] at hx
                rcases hx with hx | hx
                · subst hx; decide
                · exact utf8d_valid (c :: rest2) x hx
          · simp only [if_neg hb1, if_neg hb2, if_neg hb3, if_neg hb4,
              List.mem_cons] at hx
            rcases hx with hx | hx
            · subst hx; decide
            · exact utf8d_valid rest x hx
termination_by l => l.length
decreasing_by
  all_goals simp_wf
  all_goals omega

theorem skipSB_sublist (l : List Nat) : List.Sublist (skipSB l) l := by
  induction l with
  | nil => simp [skipSB]
  | cons a rest ih =>
    cases rest with
    | nil => simp [skipSB]
    | cons b rest2 =>
      by_cases h : a = 255 ∧ b = 240
      · simp only [skipSB, if_pos h]
        exact ((List.sublist_cons_self b rest2).trans (List.sublist_cons_self a _))
      · simp only [skipSB, if_neg h]
        exact ih.trans (List.sublist_cons_self a _)

theorem strip_mem : ∀ (l : List Nat), ∀ c ∈ stripTelnetIac l, c ∈ l ∨ c = 255
  | [] => by simp [strip_nil]
  | b :: rest => by
    intro c hc
    by_cases hb : b = 255
    · subst hb
      rcases rest with _ | ⟨cmd, rest2⟩
      · rw [strip_iac_end] at hc; simp at hc
      · by_cases h1 : cmd = 255
        · subst h1
          rw [strip_iac_iac] at hc
          rcases List.mem_cons.mp hc with hc | hc
          · right; exact hc
          · rcases strip_mem rest2 c hc with h | h
            · left; simp [h]
            · right; exact h
        · by_cases h2 : cmd = 250
          · subst h2
            rw [strip_iac_sb] at hc
            rcases strip_mem (skipSB rest2) c hc with h | h
            · left
              have hm : c ∈ rest2 := (skipSB_sublist rest2).subset h
              simp [hm]
            · right; exact h
          · by_cases h3 : cmd = 251 ∨ cmd = 252 ∨ cmd = 253 ∨ cmd = 254
            · rw [strip_iac_neg cmd rest2 h3] at hc
              rcases strip_mem rest2.tail c hc with h | h
              · left
                have hm : c ∈ rest2 := List.mem_of_mem_tail h
                simp [hm]
              · right; exact h
            · rw [strip_iac_other cmd rest2 h1 h2 h3] at hc
              rcases strip_mem rest2 c hc with h | h
              · left; simp [h]
              · right; exact h
    · rw [strip_cons_ne b rest hb] at hc
      rcases List.mem_cons.mp hc with hc | hc
      · left; simp [hc]
      · rcases strip_mem rest c hc with h | h
        · left; simp [h]
        · right; exact h
termination_by l => l.length
decreasing_by
  all_goals simp_wf
  all_goals try omega
  all_goals exact Nat.lt_succ_of_le (Nat.le_succ_of_le (skipSB_length _))

/-- Claim C9: decoding is total: smart_decode is a total function on byte
inputs, and every code point it yields is a Unicode scalar value, so the
result always forms a real string (possibly empty); malformed sequences
are substituted or discarded rather than raising. -/
theorem decode_total (data : List Nat) (h : ∀ b ∈ data, b < 256) :
    (∀ c ∈ smart_decode data, validScalar c = true) ∧ smart_decode [] = [] := by
  constructor
  · intro c hc
    by_cases hd : data = []
    · simp [hd, smart_decode] at hc
    · simp only [smart_decode, if_neg hd] at hc
      split at hc
      · rw [latin1d] at hc
        rcases strip_mem data c hc with hm | hm
        · have hb := h c hm
          simp only [validScalar, Bool.or_eq_true, decide_eq_true_eq]
          omega
        · subst hm; decide
      · exact utf8d_valid _ c hc
  · simp [smart_decode]

theorem decode_total_witness :
    (∀ b ∈ [78, 255, 250, 1, 255, 240, 195, 169, 200], b < 256) ∧
    (∀ c ∈ smart_decode [78, 255, 250, 1, 255, 240, 195, 169, 200],
      validScalar c = true) ∧
    smart_decode [] = [] := by
  have h := decode_total [78, 255, 250, 1, 255, 240, 195, 169, 200] (by decide)
  exact ⟨by decide, h.1, h.2⟩

/-! ### Protocol parser: parse_noesis_kv (bridge.py lines 239-256)

Text is modelled as List Char. Python str.strip with no arguments and the
regex class for whitespace are modelled over the ASCII whitespace
characters, which covers every input the bridge receives. -/

def isPySpace (c : Char) : Bool :=
  c = ' ' || c = '\t' || c = '\n' || c = '\r' || c = '\x0b' || c = '\x0c'

/-- Python str.strip with no arguments: remove leading and trailing
whitespace. -/
def pyStrip (l : List Char) : List Char :=
  ((l.dropWhile isPySpace).reverse.dropWhile isPySpace).reverse

/-- Python str.split on a single separator character: splits at every
occurrence, keeping empty pieces. -/
def splitOnChar (c : Char) : List Char → List (List Char)
  | [] => [[]]
  | a :: rest =>
    if a = c then [] :: splitOnChar c rest
    else
      match splitOnChar c rest with
      | [] => [[a]]
      | h :: t => (a :: h) :: t

/-- Python str.split with maxsplit 1: split at the first occurrence of the
separator, or none when the separator does not occur. -/
def splitFirst (c : Char) : List Char → Option (List Char × List Char)
  | [] => none
  | a :: rest =>
    if a = c then some ([], rest)
    else (splitFirst c rest).map (fun p => (a :: p.1, p.2))

/-- Assignment d[k] = v on a Python dict modelled as an association list:
overwrite in place when the key exists, append otherwise. -/
def dinsert (k v : List Char) : List (List Char × List Char) → List (List Char × List Char)
  | [] => [(k, v)]
  | (k1, v1) :: rest => if k1 = k then (k, v) :: rest else (k1, v1) :: dinsert k v rest

/-- Python dict.get: the value stored at the key, if present. -/
def dget (k : List Char) (d : List (List Char × List Char)) : Option (List Char) :=
  (d.find? (fun p => p.1 == k)).map (fun p => p.2)

def noesisChars : List Char := ['N', 'O', 'E', 'S', 'I', 'S']

/-- The optional colon after the marker in the regex. -/
def dropColonOpt : List Char → List Char
  | ':' :: r => r
  | r => r

/-- Matching the anchored regex of line 239 against a line: leading
whitespace, the literal marker (case-sensitive), an optional colon, then
the capture group holding the rest of the line after any further
whitespace is stripped by group(1).strip() in the caller. Returns the
text after the optional colon. -/
def noesisMatch (line : List Char) : Option (List Char) :=
  let t := line.dropWhile isPySpace
  if noesisChars.isPrefixOf t then some (dropColonOpt (t.drop 6)) else none

/-- parse_noesis_kv (lines 242-256): match the marker regex, strip the
payload, split on the pipe character dropping empty parts, split each part
at the first equals sign (parts without one are skipped), trim key and
value, build the dict; return it unless empty. -/
def parse_noesis_kv (line : List Char) : Option (List (List Char × List Char)) :=
  match noesisMatch line with
  | none => none
  | some rest =>
    let payload := pyStrip rest
    if payload = [] then none
    else
      let parts := (splitOnChar '|' payload).filter (fun p => !(p == []))
      let kv := parts.foldl (fun d p =>
        match splitFirst '=' p with
        | none => d
        | some kvp => dinsert (pyStrip kvp.1) (pyStrip kvp.2) d) []
      if kv = [] then none else some kv

/-- Lowercase an ASCII letter. -/
def lowerA (c : Char) : Char :=
  if 65 ≤ c.toNat && c.toNat ≤ 90 then Char.ofNat (c.toNat + 32) else c

def noesisLower : List Char := ['n', 'o', 'e', 's', 'i', 's']

/-- The line, after leading whitespace, starts with the marker compared
case-insensitively. -/
def startsNoesisCI (l : List Char) : Bool :=
  noesisLower.isPrefixOf (l.map lowerA)

theorem noesisMatch_some (line : List Char) (r : List Char)
    (h : noesisMatch line = some r) :
    noesisChars.isPrefixOf (line.dropWhile isPySpace) = true ∧
    r = dropColonOpt ((line.dropWhile isPySpace).drop 6) := by
  unfold noesisMatch at h
  by_cases hp : noesisChars.isPrefixOf (line.dropWhile isPySpace) = true
  · simp only [hp, if_true] at h
    exact ⟨hp, (Option.some_inj.mp h).symm⟩
  · simp [hp] at h

/-- Claim C2: the parser yields a key/value mapping only when the line,
after leading whitespace, starts with the marker prefix compared
case-insensitively (the code matches it case-sensitively, which is a
special case), optionally followed by a colon; every line not starting
with the marker after trimming yields no event, and a qualifying line
whose payload is empty yields no event. -/
theorem parse_marker_gate (line : List Char) :
    ((parse_noesis_kv line).isSome = true →
       startsNoesisCI (line.dropWhile isPySpace) = true) ∧
    (startsNoesisCI (line.dropWhile isPySpace) = false →
       parse_noesis_kv line = none) ∧
    (startsNoesisCI (line.dropWhile isPySpace) = true →
       pyStrip (dropColonOpt ((line.dropWhile isPySpace).drop 6)) = [] →
       parse_noesis_kv line = none) := by
  have hCI : noesisChars.isPrefixOf (line.dropWhile isPySpace) = true →
      startsNoesisCI (line.dropWhile isPySpace) = true := by
    intro hp
    rw [List.isPrefixOf_iff_prefix] at hp
    obtain ⟨r, hr⟩ := hp
    unfold startsNoesisCI
    rw [List.isPrefixOf_iff_prefix, ← hr, List.map_append]
    have hmap : noesisChars.map lowerA = noesisLower := by decide
    rw [hmap]
    exact List.prefix_append _ _
  have p1 : (parse_noesis_kv line).isSome = true →
      startsNoesisCI (line.dropWhile isPySpace) = true := by
    intro h
    rw [Option.isSome_iff_exists] at h
    obtain ⟨kv, hkv⟩ := h
    unfold parse_noesis_kv at hkv
    cases hm : noesisMatch line with
    | none => rw [hm] at hkv; simp at hkv
    | some r => exact hCI (noesisMatch_some line r hm).1
  refine ⟨p1, ?_, ?_⟩
  · intro h
    cases hq : parse_noesis_kv line with
    | none => rfl
    | some kv =>
      have := p1 (by rw [hq]; rfl)
      rw [this] at h
      exact absurd h (by simp)
  · intro hci hempty
    cases hm : noesisMatch line with
    | none => unfold parse_noesis_kv; rw [hm]
    | some r =>
      obtain ⟨hp, hr⟩ := noesisMatch_some line r hm
      have he : pyStrip r = [] := by rw [hr]; exact hempty
      unfold parse_noesis_kv
      rw [hm]
      simp [he]

theorem parse_marker_gate_witness :
    parse_noesis_kv ['h', 'e', 'l', 'l', 'o'] = none ∧
    parse_noesis_kv ['N', 'O', 'E', 'S', 'I', 'S', ':', ' '] = none := by
  constructor
  · exact (parse_marker_gate ['h', 'e', 'l', 'l', 'o']).2.1 (by decide)
  · exact (parse_marker_gate ['N', 'O', 'E', 'S', 'I', 'S', ':', ' ']).2.2
      (by decide) (by decide)

/-! ### Bridge main loop, record mode (bridge.py lines 331-406)

The per-line handling of the receive loop: strip the line, parse the
marker, validate the mandatory keys of the event kind, and only then
increment seq and build the event record. The wall-clock ts_utc field is
omitted from the model; run_id is a parameter. -/

def keyT : List Char := ['t']
def keyActor : List Char := ['a', 'c', 't', 'o', 'r']
def keyLoc : List Char := ['l', 'o', 'c']
def keyRaw : List Char := ['r', 'a', 'w']
def keyVerb : List Char := ['v', 'e', 'r', 'b']
def keyFrom : List Char := ['f', 'r', 'o', 'm']
def keyTo : List Char := ['t', 'o']
def tySAY : List Char := ['S', 'A', 'Y']
def tyMOVE : List Char := ['M', 'O', 'V', 'E']

/-- Python truthiness of an optional string: present and non-empty. -/
def truthy : Option (List Char) → Bool
  | some v => !(v == [])
  | none => false

structure Ident where
  dbref : List Char
  name : List Char
  deriving DecidableEq

structure Event where
  run_id : List Char
  seq : Nat
  type : List Char
  actor : Ident
  location : Ident
  content : List (List Char × List Char)
  perceived_by : List (List Char)
  occluded_for : List (List Char)
  deriving DecidableEq

/-- One iteration of the inner line loop (lines 332-406) in record mode:
returns the updated seq counter and the event written, if any. -/
def stepLine (rid : List Char) (seq : Nat) (rawLine : List Char) : Nat × Option Event :=
  let line := pyStrip rawLine
  if line = [] then (seq, none)
  else
    match parse_noesis_kv line with
    | none => (seq, none)
    | some kv =>
      match dget keyT kv with
      | none => (seq, none)
      | some t =>
        if t = [] then (seq, none)
        else if t = tySAY then
          let actor := dget keyActor kv
          let loc := dget keyLoc kv
          let raw := (dget keyRaw kv).getD []
          let verb := dget keyVerb kv
          if truthy actor && truthy loc then
            let a := actor.getD []
            let lo := loc.getD []
            let content0 := dinsert keyRaw raw []
            let content := if truthy verb then dinsert keyVerb (verb.getD []) content0
              else content0
            (seq + 1, some {
              run_id := rid, seq := seq + 1, type := tySAY,
              actor := ⟨a, a⟩, location := ⟨lo, lo⟩,
              content := content, perceived_by := [a], occluded_for := [] })
          else (seq, none)
        else if t = tyMOVE then
          let actor := dget keyActor kv
          let frm := dget keyFrom kv
          let tov := dget keyTo kv
          let raw := (dget keyRaw kv).getD []
          if truthy actor && truthy frm && truthy tov then
            let a := actor.getD []
            let f := frm.getD []
            let tv := tov.getD []
            (seq + 1, some {
              run_id := rid, seq := seq + 1, type := tyMOVE,
              actor := ⟨a, a⟩, location := ⟨tv, tv⟩,
              content := dinsert keyRaw raw (dinsert keyTo tv (dinsert keyFrom f [])),
              perceived_by := [a], occluded_for := [] })
          else (seq, none)
        else (seq, none)

/-- Folding stepLine over the received lines: final seq and the list of
written events in order. -/
def runLines (rid : List Char) (seq : Nat) : List (List Char) → Nat × List Event
  | [] => (seq, [])
  | l :: rest =>
    let r1 := stepLine rid seq l
    let r2 := runLines rid r1.1 rest
    (r2.1, r1.2.toList ++ r2.2)

/-- The mandatory keys of the line's event kind are present and non-empty
in the parsed mapping. -/
def mandatoryKeys (rawLine : List Char) (ty : List Char) : Prop :=
  ∃ kv, parse_noesis_kv (pyStrip rawLine) = some kv ∧
    ((ty = tySAY ∧ truthy (dget keyActor kv) = true ∧ truthy (dget keyLoc kv) = true) ∨
     (ty = tyMOVE ∧ truthy (dget keyActor kv) = true ∧
       truthy (dget keyFrom kv) = true ∧ truthy (dget keyTo kv) = true))

theorem stepLine_cases (rid : List Char) (s : Nat) (l : List Char) :
    (stepLine rid s l = (s, none)) ∨
    (∃ e, stepLine rid s l = (s + 1, some e) ∧ e.seq = s + 1 ∧
      mandatoryKeys l e.type) := by
  simp only [stepLine]
  repeat' split
  all_goals try exact Or.inl rfl
  all_goals refine Or.inr ⟨_, rfl, rfl, ?_⟩
  all_goals unfold mandatoryKeys
  · rename_i hp hx ht hk hne hsay htr hverb
    simp only [Bool.and_eq_true] at htr
    exact ⟨_, hp, Or.inl ⟨rfl, htr.1, htr.2⟩⟩
  · rename_i hp hx ht hk hne hsay htr hverb
    simp only [Bool.and_eq_true] at htr
    exact ⟨_, hp, Or.inl ⟨rfl, htr.1, htr.2⟩⟩
  · rename_i hp hx ht hk hne hnsay hmove htr
    simp only [Bool.and_eq_true] at htr
    exact ⟨_, hp, Or.inr ⟨rfl, htr.1.1, htr.1.2, htr.2⟩⟩

theorem runLines_seq (rid : List Char) (s : Nat) (ls : List (List Char)) :
    (runLines rid s ls).1 = s + (runLines rid s ls).2.length ∧
    (runLines rid s ls).2.map Event.seq =
      List.range' (s + 1) (runLines rid s ls).2.length := by
  induction ls generalizing s with
  | nil => simp [runLines]
  | cons l rest ih =>
    rcases stepLine_cases rid s l with h | ⟨e, h, hseq, _⟩
    · simp only [runLines, h]
      simpa using ih s
    · simp only [runLines, h]
      obtain ⟨ih1, ih2⟩ := ih (s + 1)
      constructor
      · simp only [Option.toList_some, List.singleton_append, List.length_cons, ih1]
        omega
      · simp only [Option.toList_some, List.singleton_append, List.length_cons,
          List.map_cons, hseq, ih2, List.range'_succ]

/-- Claim C1: a sequence number is assigned only after the mandatory keys
of the event kind are validated (actor and loc for SAY; actor, from and to
for MOVE); a line failing validation changes nothing, so over any received
line list the written events carry seq values 1, 2, ... with no gaps, one
increment per written event. -/
theorem bridge_seq_gapless (rid : List Char) (lines : List (List Char)) :
    ((runLines rid 0 lines).2.map Event.seq =
      List.range' 1 (runLines rid 0 lines).2.length) ∧
    (∀ s l, (stepLine rid s l).2 = none → (stepLine rid s l).1 = s) ∧
    (∀ s l e, (stepLine rid s l).2 = some e →
      (stepLine rid s l).1 = s + 1 ∧ e.seq = s + 1 ∧ mandatoryKeys l e.type) := by
  refine ⟨by simpa using (runLines_seq rid 0 lines).2, ?_, ?_⟩
  · intro s l h
    rcases stepLine_cases rid s l with hc | ⟨e, hc, _⟩
    · rw [hc]
    · rw [hc] at h; simp at h
  · intro s l e h
    rcases stepLine_cases rid s l with hc | ⟨e2, hc, hs, hm⟩
    · rw [hc] at h; simp at h
    · rw [hc] at h ⊢
      have he : e2 = e := by simpa using h
      subst he
      exact ⟨rfl, hs, hm⟩

def sayLineBad : List Char :=
  ['N', 'O', 'E', 'S', 'I', 'S', ':', ' ', 't', '=', 'S', 'A', 'Y', '|',
   'a', 'c', 't', 'o', 'r', '=', '#', '1']

def sayLineGood : List Char :=
  ['N', 'O', 'E', 'S', 'I', 'S', ':', ' ', 't', '=', 'S', 'A', 'Y', '|',
   'a', 'c', 't', 'o', 'r', '=', '#', '1', '|', 'l', 'o', 'c', '=', '#', '2']

def sayEventGood : Event :=
  { run_id := [], seq := 8, type := tySAY,
    actor := ⟨['#', '1'], ['#', '1']⟩, location := ⟨['#', '2'], ['#', '2']⟩,
    content := [(keyRaw, [])], perceived_by := [['#', '1']], occluded_for := [] }

theorem bridge_seq_gapless_witness :
    (stepLine [] 0 sayLineBad).1 = 0 ∧
    (stepLine [] 7 sayLineGood).1 = 8 ∧ sayEventGood.seq = 8 := by
  refine ⟨?_, ?_⟩
  · exact (bridge_seq_gapless [] []).2.1 0 sayLineBad (by decide)
  · have h := (bridge_seq_gapless [] []).2.2 7 sayLineGood sayEventGood (by decide)
    exact ⟨h.1, h.2.1⟩

theorem dget_move_content (f tv raw : List Char) :
    dget keyFrom (dinsert keyRaw raw (dinsert keyTo tv (dinsert keyFrom f []))) = some f ∧
    dget keyTo (dinsert keyRaw raw (dinsert keyTo tv (dinsert keyFrom f []))) = some tv := by
  simp [dinsert, dget, keyFrom, keyTo, keyRaw, List.find?]

/-- Claim C10: a validated MOVE event is emitted with its location set to
the movement destination: both the dbref and the display name equal the
payload's to value (not the source), while the content mapping carries
both the from and the to values. -/
theorem move_location_dest (rid : List Char) (s : Nat) (l : List Char) (e : Event)
    (h : (stepLine rid s l).2 = some e) (hty : e.type = tyMOVE) :
    (parse_noesis_kv (pyStrip l)).isSome = true ∧
    e.location.dbref = (dget keyTo ((parse_noesis_kv (pyStrip l)).getD [])).getD [] ∧
    e.location.name = (dget keyTo ((parse_noesis_kv (pyStrip l)).getD [])).getD [] ∧
    dget keyFrom e.content =
      some ((dget keyFrom ((parse_noesis_kv (pyStrip l)).getD [])).getD []) ∧
    dget keyTo e.content =
      some ((dget keyTo ((parse_noesis_kv (pyStrip l)).getD [])).getD []) := by
  simp only [stepLine] at h
  repeat' split at h
  all_goals try (exfalso; revert h; simp; done)
  all_goals replace h := Option.some_inj.mp h
  all_goals subst h
  all_goals try (apply absurd hty; simp [tySAY, tyMOVE]; done)
  rename_i hp hx ht hk hne hnsay hmove htr
  rw [hp]
  refine ⟨rfl, rfl, rfl, ?_, ?_⟩
  · exact (dget_move_content _ _ _).1
  · exact (dget_move_content _ _ _).2

def moveLine : List Char :=
  ['N', 'O', 'E', 'S', 'I', 'S', ':', ' ', 't', '=', 'M', 'O', 'V', 'E', '|',
   'a', 'c', 't', 'o', 'r', '=', '#', '1', '|', 'f', 'r', 'o', 'm', '=', '#', '5',
   '|', 't', 'o', '=', '#', '9']

def moveEvent : Event :=
  { run_id := [], seq := 1, type := tyMOVE,
    actor := ⟨['#', '1'], ['#', '1']⟩, location := ⟨['#', '9'], ['#', '9']⟩,
    content := [(keyFrom, ['#', '5']), (keyTo, ['#', '9']), (keyRaw, [])],
    perceived_by := [['#', '1']], occluded_for := [] }

theorem move_location_dest_witness :
    (stepLine [] 0 moveLine).2 = some moveEvent ∧ moveEvent.type = tyMOVE ∧
    moveEvent.location.dbref =
      (dget keyTo ((parse_noesis_kv (pyStrip moveLine)).getD [])).getD [] ∧
    dget keyTo moveEvent.content =
      some ((dget keyTo ((parse_noesis_kv (pyStrip moveLine)).getD [])).getD []) := by
  have h := move_location_dest [] 0 moveLine moveEvent (by decide) (by decide)
  exact ⟨by decide, by decide, h.2.1, h.2.2.2.2⟩

/-! ### Event log writer (writer.py)

Paths are modelled as lists of path components (each a List Char); the
file system as a map from paths to the durably stored record list. The
writer is generic in the record type: one call appends one record, as
json.dumps of the event plus a newline does in the source. The current
UTC day (utc_day in the source) is passed explicitly. -/

abbrev FName := List Char

abbrev EPath := List FName

/-- events_path (writer.py lines 15-25): out/events/YYYY/YYYY-MM/events-YYYY-MM-DD.jsonl
with year = day[:4] and month directory = day[:7]. Directory creation has
no observable effect in the model. -/
def events_path (out_dir : EPath) (day : FName) : EPath :=
  out_dir ++ [['e', 'v', 'e', 'n', 't', 's'], day.take 4, day.take 7,
    ['e', 'v', 'e', 'n', 't', 's', '-'] ++ day ++ ['.', 'j', 's', 'o', 'n', 'l']]

def FS (E : Type) := EPath → List E

def fsAppend {E : Type} (fs : FS E) (p : EPath) (recs : List E) : FS E :=
  fun q => if q = p then fs q ++ recs else fs q

/-- EventWriter (writer.py lines 28-41): out_dir plus the mutable fields
_current_day, _fh and _current_path; the open handle carries its path and
its unflushed buffer. -/
structure WriterState (E : Type) where
  out_dir : EPath
  current_day : Option FName := none
  fh : Option (EPath × List E) := none
  current_path : Option EPath := none

/-- EventWriter.close (lines 71-79): closing flushes any buffered data,
then all three fields are cleared. -/
def wclose {E : Type} (fs : FS E) (w : WriterState E) : FS E × WriterState E :=
  match w.fh with
  | some pb => (fsAppend fs pb.1 pb.2,
      { w with fh := none, current_day := none, current_path := none })
  | none => (fs, { w with fh := none, current_day := none, current_path := none })

/-- EventWriter._ensure_open (lines 43-53): keep the handle when one is
open for the same day; otherwise close the current file first, then open
the file of the new day in append mode (existing contents preserved). -/
def ensure_open {E : Type} (fs : FS E) (w : WriterState E) (day : FName) :
    FS E × WriterState E :=
  if w.fh.isSome = true ∧ w.current_day = some day then (fs, w)
  else
    let r := wclose fs w
    let p := events_path w.out_dir day
    (r.1, { r.2 with fh := some (p, []), current_day := some day
                     current_path := some p })

/-- EventWriter.write_event (lines 55-69), with the current UTC day passed
explicitly: ensure the file of that day is open, write the event as one
record to the handle, flush, and return the path used. The none branch of
the match is unreachable after ensure_open. -/
def write_event {E : Type} (fs : FS E) (w : WriterState E) (day : FName) (ev : E) :
    FS E × WriterState E × EPath :=
  let r := ensure_open fs w day
  match r.2.fh with
  | some pb =>
    (fsAppend r.1 pb.1 (pb.2 ++ [ev]), { r.2 with fh := some (pb.1, []) },
      r.2.current_path.getD pb.1)
  | none => (r.1, r.2, r.2.current_path.getD [])

/-- Consistency of a writer state: any open handle has an empty (flushed)
buffer and agrees with the recorded current day and path. -/
def WriterWF {E : Type} (w : WriterState E) : Prop :=
  match w.fh with
  | none => True
  | some pb => pb.2 = [] ∧ ∃ d, w.current_day = some d ∧
      pb.1 = events_path w.out_dir d ∧ w.current_path = some pb.1

theorem ensure_open_spec {E : Type} (fs : FS E) (w : WriterState E) (day : FName)
    (hwf : WriterWF w) :
    (ensure_open fs w day).2.fh = some (events_path w.out_dir day, []) ∧
    (ensure_open fs w day).2.current_path = some (events_path w.out_dir day) ∧
    (ensure_open fs w day).2.current_day = some day ∧
    (ensure_open fs w day).2.out_dir = w.out_dir ∧
    ∀ q, (ensure_open fs w day).1 q = fs q := by
  obtain ⟨out, cd, fh, cp⟩ := w
  cases fh with
  | none => simp [ensure_open, wclose]
  | some pb =>
    obtain ⟨p, b⟩ := pb
    obtain ⟨hbuf, d, hd, hp, hcp⟩ := hwf
    simp only at hbuf hd hp hcp
    subst hbuf hd hp hcp
    by_cases hk : d = day
    · subst hk
      simp [ensure_open, wclose]
    · have hk2 : (some d : Option FName) ≠ some day := by simpa using hk
      simp [ensure_open, wclose, hk2, fsAppend]

/-- Claim C3: each call of the writer's append operation appends exactly
one serialized record to the file of the UTC day the write occurs in,
touches no other file, leaves the buffer flushed before returning (the
record is already in durable storage when the call returns), and returns
that file's path. -/
theorem writer_append_flush {E : Type} (fs : FS E) (w : WriterState E)
    (day : FName) (ev : E) (hwf : WriterWF w) :
    (write_event fs w day ev).2.2 = events_path w.out_dir day ∧
    (write_event fs w day ev).1 (events_path w.out_dir day) =
      fs (events_path w.out_dir day) ++ [ev] ∧
    (∀ q, q ≠ events_path w.out_dir day → (write_event fs w day ev).1 q = fs q) ∧
    (write_event fs w day ev).2.1.fh = some (events_path w.out_dir day, []) ∧
    WriterWF (write_event fs w day ev).2.1 := by
  obtain ⟨hfh, hcp, hcd, hout, hfs⟩ := ensure_open_spec fs w day hwf
  simp only [write_event, hfh, hcp, Option.getD_some, List.nil_append]
  refine ⟨trivial, ?_, fun q hq => ?_, trivial, ?_⟩
  · simp [fsAppend, hfs]
  · simp [fsAppend, hq, hfs]
  · simp [WriterWF, hcd, hout, hcp]

theorem writer_append_flush_witness :
    WriterWF ({ out_dir := [] } : WriterState Nat) ∧
    (write_event (fun _ => []) ({ out_dir := [] } : WriterState Nat)
        ['2', '0', '2', '6', '-', '0', '1', '-', '1', '5'] 7).2.2 =
      events_path [] ['2', '0', '2', '6', '-', '0', '1', '-', '1', '5'] ∧
    (write_event (fun _ => []) ({ out_dir := [] } : WriterState Nat)
        ['2', '0', '2', '6', '-', '0', '1', '-', '1', '5'] 7).1
      (events_path [] ['2', '0', '2', '6', '-', '0', '1', '-', '1', '5']) =
      [7] := by
  have hwf : WriterWF ({ out_dir := [] } : WriterState Nat) := by
    simp [WriterWF]
  have h := writer_append_flush (fun _ => ([] : List Nat))
    ({ out_dir := [] } : WriterState Nat)
    ['2', '0', '2', '6', '-', '0', '1', '-', '1', '5'] 7 hwf
  exact ⟨hwf, h.1, h.2.1⟩

/-- Claim C7: the target file path is derived deterministically from the
UTC day as events/year/year-month/events-year-month-day.jsonl; opening
always yields the day's file with a fresh flushed handle, leaving every
stored file unchanged (on a rollover the previous file is closed before
the new one is opened; the writer state holds at most one handle, its
single optional fh field); a same-day call keeps the open handle; and a
write touches no file other than the one of its day. -/
theorem writer_day_partition {E : Type} (fs : FS E) (w : WriterState E)
    (day : FName) (ev : E) (y m d : List Char)
    (hy : y.length = 4) (hm : m.length = 2) (hwf : WriterWF w) :
    events_path w.out_dir (y ++ '-' :: (m ++ '-' :: d)) =
      w.out_dir ++ [['e', 'v', 'e', 'n', 't', 's'], y, y ++ '-' :: m,
        ['e', 'v', 'e', 'n', 't', 's', '-'] ++ (y ++ '-' :: (m ++ '-' :: d)) ++
          ['.', 'j', 's', 'o', 'n', 'l']] ∧
    ((ensure_open fs w day).2.fh = some (events_path w.out_dir day, []) ∧
      ∀ q, (ensure_open fs w day).1 q = fs q) ∧
    (w.fh.isSome = true → w.current_day = some day → ensure_open fs w day = (fs, w)) ∧
    (∀ q, q ≠ events_path w.out_dir day → (write_event fs w day ev).1 q = fs q) := by
  obtain ⟨hfh, hcp, hcd, hout, hfs⟩ := ensure_open_spec fs w day hwf
  refine ⟨?_, ⟨hfh, hfs⟩, fun h1 h2 => ?_, fun q hq => ?_⟩
  · unfold events_path
    have h4 : (y ++ '-' :: (m ++ '-' :: d)).take 4 = y := by
      exact List.take_left' hy
    have h7 : (y ++ '-' :: (m ++ '-' :: d)).take 7 = y ++ '-' :: m := by
      have hassoc : y ++ '-' :: (m ++ '-' :: d) = (y ++ '-' :: m) ++ '-' :: d := by
        simp
      rw [hassoc]
      exact List.take_left' (by simp [hy, hm])
    rw [h4, h7]
  · simp [ensure_open, h1, h2]
  · simp only [write_event, hfh, hcp, Option.getD_some, List.nil_append]
    simp [fsAppend, hq, hfs]

theorem writer_day_partition_witness :
    events_path [] (['2', '0', '2', '6'] ++ '-' :: (['0', '1'] ++ '-' :: ['1', '5'])) =
      [] ++ [['e', 'v', 'e', 'n', 't', 's'], ['2', '0', '2', '6'],
        ['2', '0', '2', '6'] ++ '-' :: ['0', '1'],
        ['e', 'v', 'e', 'n', 't', 's', '-'] ++
          (['2', '0', '2', '6'] ++ '-' :: (['0', '1'] ++ '-' :: ['1', '5'])) ++
          ['.', 'j', 's', 'o', 'n', 'l']] ∧
    (ensure_open (fun _ => ([] : List Nat)) ({ out_dir := [] } : WriterState Nat)
        ['2', '0', '2', '6', '-', '0', '1', '-', '1', '6']).2.fh =
      some (events_path [] ['2', '0', '2', '6', '-', '0', '1', '-', '1', '6'], []) := by
  have h := writer_day_partition (fun _ => ([] : List Nat))
    ({ out_dir := [] } : WriterState Nat)
    ['2', '0', '2', '6', '-', '0', '1', '-', '1', '6'] 7
    ['2', '0', '2', '6'] ['0', '1'] ['1', '5']
    (by decide) (by decide) (by simp [WriterWF])
  exact ⟨h.1, h.2.1.1⟩

/-! ### Error propagation: keepalive and heartbeat (bridge.py)

Exception control flow is embedded with an explicit result type: a Python
statement either returns normally or raises. -/

inductive PyResult (α : Type) where
  | ok (a : α)
  | exc (msg : List Char)
  deriving DecidableEq

/-- try/except Exception: a raised exception is passed to the handler and
execution continues normally; a normal result passes through. -/
def pyTry {α : Type} (body : PyResult α) (handler : List Char → α) : PyResult α :=
  match body with
  | .ok a => .ok a
  | .exc e => .ok (handler e)

/-- One iteration of KeepAlive.run (bridge.py lines 221-228): the +ping
send is wrapped in try/except Exception, whose handler only appends a log
line; the value carries the log lines written so far. -/
def keepalive_iter (sendRes : PyResult Unit) (log : List (List Char)) :
    PyResult (List (List Char)) :=
  pyTry
    (match sendRes with
     | .ok _ => .ok log
     | .exc e => .exc e)
    (fun e => log ++ [['k', 'e', 'e', 'p', 'a', 'l', 'i', 'v', 'e', ':'] ++ e])

/-- The heartbeat emission step inside the main while loop (bridge.py
lines 408-422): write_json_atomic is called with no local try/except, so
an exception from it propagates out of the loop. -/
def heartbeat_iter (writeRes : PyResult Unit) (log : List (List Char)) :
    PyResult (List (List Char)) :=
  match writeRes with
  | .ok _ => .ok (log ++ [['a', 'l', 'i', 'v', 'e']])
  | .exc e => .exc e

/-- The top-level handler of main (bridge.py lines 426-435): an exception
reaching it is logged as fatal and main returns exit code 1. -/
def main_exit (r : PyResult Unit) : Int :=
  match r with
  | .ok _ => 0
  | .exc _ => 1

/-- Claim C4 counterexample: a failing heartbeat write is not logged-only:
heartbeat_iter propagates the exception out of the main loop, and the
top-level handler then ends the run with exit code 1. -/
theorem heartbeat_failure_fatal_cx :
    heartbeat_iter (PyResult.exc ['d', 'i', 's', 'k']) [] =
      PyResult.exc ['d', 'i', 's', 'k'] ∧
    main_exit (PyResult.exc ['d', 'i', 's', 'k']) = 1 := ⟨rfl, rfl⟩

/-- Claim C4 amended: a keepalive send failure is logged only and never
escalates (every exception is caught in KeepAlive.run and the thread
continues), but a heartbeat write failure propagates out of the main
receive/parse/write loop to the top-level handler, which logs it as fatal
and terminates the run with exit code 1. -/
theorem keepalive_logged_heartbeat_fatal :
    (∀ (sendRes : PyResult Unit) (log : List (List Char)),
      ∃ l2, keepalive_iter sendRes log = PyResult.ok l2) ∧
    (∀ (e : List Char) (log : List (List Char)),
      heartbeat_iter (PyResult.exc e) log = PyResult.exc e ∧
      main_exit (PyResult.exc e) = 1) := by
  constructor
  · intro sendRes log
    cases sendRes with
    | ok a => exact ⟨log, rfl⟩
    | exc e => exact ⟨_, rfl⟩
  · intro e log
    exact ⟨rfl, rfl⟩

/-! ### Run driver retry loop (elias_mux_bot.py lines 367-386)

Delays are modelled over the rationals; the Python floats 1.0, 1.7 and
30.0 are the exact rationals 1, 17/10 and 30. -/

def BACKOFF_START : ℚ := 1

def BACKOFF_MULT : ℚ := 17/10

def BACKOFF_MAX : ℚ := 30

/-- How one iteration of the retry loop ends: connect() or
login_and_settle() raised (before the backoff reset on line 379), or
loop() raised after the reset; the sustained flag records whether the
Ready period did sustained work before failing, information the code
never inspects. -/
inductive AttemptOutcome where
  | preReadyFail
  | readyFail (sustained : Bool)
  deriving DecidableEq

/-- One iteration of the retry loop (lines 374-385): given the backoff
entering the iteration, the delay slept after the failure and the backoff
for the next iteration. On a pre-Ready failure the current backoff is
slept, then multiplied by 1.7 and capped at 30. When loop() raises, the
backoff had already been reset to 1.0 right after login succeeded, so the
sleep is 1 and the next backoff is min(1 * 1.7, 30), regardless of the
sustained flag. -/
def driverStep (b : ℚ) : AttemptOutcome → ℚ × ℚ
  | .preReadyFail => (b, min (b * BACKOFF_MULT) BACKOFF_MAX)
  | .readyFail _ => (BACKOFF_START, min (BACKOFF_START * BACKOFF_MULT) BACKOFF_MAX)

/-- Sleeps of a run of the retry loop, starting from a given backoff. -/
def driverRun (b : ℚ) : List AttemptOutcome → List ℚ
  | [] => []
  | o :: os => (driverStep b o).1 :: driverRun (driverStep b o).2 os

/-- Claim C8 counterexample: after two pre-Ready failures the backoff is
289/100, yet an iteration that reaches Ready and fails immediately
(sustained false) sleeps only 1 and continues from 17/10: the reset
happened with no sustained Ready operation, where the claim requires the
unreset delay 289/100 and growth to min(289/100 * 17/10, 30). -/
theorem backoff_reset_cx :
    driverRun BACKOFF_START
      [AttemptOutcome.preReadyFail, AttemptOutcome.preReadyFail,
       AttemptOutcome.readyFail false] = [1, 17/10, 1] ∧
    driverStep ((289 : ℚ)/100) (AttemptOutcome.readyFail false) = (1, 17/10) ∧
    ((1 : ℚ) ≠ 289/100) := by
  refine ⟨?_, ?_, by norm_num⟩
  · simp only [driverRun, driverStep, BACKOFF_START, BACKOFF_MULT, BACKOFF_MAX]
    norm_num [min_def]
  · simp only [driverStep, BACKOFF_START, BACKOFF_MULT, BACKOFF_MAX]
    norm_num [min_def]

/-- Claim C8 amended: the backoff delay starts at 1 time unit, is
multiplied by the fixed multiplier 1.7 after each consecutive pre-Ready
failure, is capped at 30, and is reset to the initial value as soon as
connect and login succeed (on entering Ready) - even when Ready operation
then fails immediately - rather than only after a sustained period of
Ready operation. -/
theorem backoff_schedule (b : ℚ) (s : Bool) :
    driverStep b AttemptOutcome.preReadyFail =
      (b, min (b * BACKOFF_MULT) BACKOFF_MAX) ∧
    driverStep b (AttemptOutcome.readyFail s) =
      (BACKOFF_START, min (BACKOFF_START * BACKOFF_MULT) BACKOFF_MAX) ∧
    (∀ o, (driverStep b o).2 ≤ BACKOFF_MAX) ∧
    (driverStep BACKOFF_START AttemptOutcome.preReadyFail).1 = 1 := by
  refine ⟨rfl, rfl, fun o => ?_, rfl⟩
  cases o <;> exact min_le_right _ _
